import Mathlib

set_option maxHeartbeats 1000000

namespace Argx

/-- A character of a `std::string` read with `operator[]`: reading the
position just past the end yields the terminating NUL character, matching
the C++ semantics of `arg[0]` / `arg[1]` in `argx::parse`. -/
def charAt (s : String) (i : Nat) : Char :=
  s.data.getD i (Char.ofNat 0)

/-- `arg.substr(1)`: the token with its first character removed. -/
def stripOne (t : String) : String :=
  String.mk (t.data.drop 1)

/-- `arg.substr(2)`: the token with its first two characters removed. -/
def stripTwo (t : String) : String :=
  String.mk (t.data.drop 2)

/-- The three-way branch of the scan loop in `argx::parse`:
`arg[0]=='-' && arg[1]=='-'` selects the flag branch, otherwise
`arg[0]=='-'` selects the option branch, otherwise the argument branch. -/
inductive TokKind where
  | flagT
  | optT
  | bareT
deriving DecidableEq, Repr

def tokKind (t : String) : TokKind :=
  if charAt t 0 = '-' then
    if charAt t 1 = '-' then .flagT else .optT
  else .bareT

abbrev ValList := List String

/-- `std::map<std::string, string_list>` modelled as an association list
with unique keys; only lookup equality of the map is ever observed. -/
abbrev OptMap := List (String × ValList)

def lookupOM : OptMap → String → Option ValList
  | [], _ => none
  | (k', vs) :: rest, k => if k' = k then some vs else lookupOM rest k

def containsOM : OptMap → String → Bool
  | [], _ => false
  | (k', _) :: rest, k => if k' = k then true else containsOM rest k

/-- `options[key].push_back(value)` on a key already present: the value is
appended to the entry of the (unique) matching key. -/
def appendVal : OptMap → String → String → OptMap
  | [], _, _ => []
  | (k', vs) :: rest, k, v =>
    if k' = k then (k', vs ++ [v]) :: rest else (k', vs) :: appendVal rest k v

/-- `ParseResultBuilder::option(key, value)`. -/
def optionKV (m : OptMap) (k v : String) : OptMap :=
  if containsOM m k then appendVal m k v else m ++ [(k, [v])]

/-- `ParseResultBuilder::option(key)`. -/
def optionK (m : OptMap) (k : String) : OptMap :=
  if containsOM m k then m else m ++ [(k, [])]

/-- Registering the pending option name, when one exists. -/
def regPrev (m : OptMap) : Option String → OptMap
  | some p => optionK m p
  | none => m

structure ParseResult where
  args : List String
  opts : OptMap
  flags : List String
deriving DecidableEq, Repr

/-- The scan loop of `argx::parse` over the tokens `argv[1] ..`, carrying
the builder state and the pending option name `previous`. -/
def scanGo : List String → OptMap → List String → Option String → List String → ParseResult
  | args, opts, flags, prev, [] => { args := args, opts := regPrev opts prev, flags := flags }
  | args, opts, flags, prev, t :: ts =>
    match tokKind t with
    | .flagT => scanGo args (regPrev opts prev) (flags ++ [stripTwo t]) none ts
    | .optT => scanGo args (regPrev opts prev) flags (some (stripOne t)) ts
    | .bareT =>
      match prev with
      | some p => scanGo args (optionKV opts p t) flags none ts
      | none => scanGo (args ++ [t]) opts flags none ts

/-- Classification of a token list: the loop body of `argx::parse` applied
to the tokens after the program name. -/
def classify (toks : List String) : ParseResult :=
  scanGo [] [] [] none toks

/-- `argx::parse(argc, argv)`: the loop starts at index 1, so only the
tokens after the first are scanned. -/
def parse (argv : List String) : ParseResult :=
  classify (argv.drop 1)

/-- The two error kinds of the result view: `std::out_of_range` thrown with
an index-out-of-range message by `argument`, and with a key-not-found
message by `option`. -/
inductive ArgxError where
  | indexOutOfRange
  | keyNotFound
deriving DecidableEq, Repr

/-- Outcome of a strict option lookup.  `undef` records the one behaviour
the C++ leaves undefined: calling `front()` on an empty `std::list`. -/
inductive LookupOutcome where
  | ok (v : String)
  | err (e : ArgxError)
  | undef
deriving DecidableEq, Repr

/-- The conversion applied by `index >= _args.size()`: the `int` index is
converted to the unsigned 64-bit `size_t`, i.e. taken modulo `2^64`
(`18446744073709551616`). -/
def idxToSize (i : Int) : Nat :=
  (i % 18446744073709551616).toNat

/-- `ParseResult::argOrDef(index, def)`. -/
def argOrDef (r : ParseResult) (i : Int) (d : String) : String :=
  if r.args.length ≤ idxToSize i then d else r.args.getD (idxToSize i) d

/-- `ParseResult::argument(index)`. -/
def argument (r : ParseResult) (i : Int) : Except ArgxError String :=
  if r.args.length ≤ idxToSize i then .error .indexOutOfRange
  else .ok (r.args.getD (idxToSize i) "")

/-- `ParseResult::argSize()`. -/
def argSizeA (r : ParseResult) : Nat := r.args.length

/-- `ParseResult::args()`. -/
def argsA (r : ParseResult) : List String := r.args

/-- `ParseResult::optionSize()`. -/
def optionSizeA (r : ParseResult) : Nat := r.opts.length

/-- `ParseResult::options()`. -/
def optionsAll (r : ParseResult) : OptMap := r.opts

/-- `ParseResult::flagSize()`. -/
def flagSizeA (r : ParseResult) : Nat := r.flags.length

/-- `ParseResult::flags()`. -/
def flagsAll (r : ParseResult) : List String := r.flags

/-- `ParseResult::flag(flag)`: `std::ranges::find(_flags, flag) != end`. -/
def flagA (r : ParseResult) (f : String) : Bool :=
  r.flags.contains f

/-- `std::map::operator[]`: yields the mapped value, inserting an empty
entry first when the key is absent.  Returns the value read together with
the (possibly grown) map. -/
def mapIndex (m : OptMap) (k : String) : ValList × OptMap :=
  match lookupOM m k with
  | some vs => (vs, m)
  | none => ([], m ++ [(k, [])])

/-- `ParseResult::optionOrDef(key, def)`.  The first component is the
string returned; `none` records the undefined `front()` of an empty list. -/
def optionOrDefS (r : ParseResult) (k d : String) : Option String × ParseResult :=
  if containsOM r.opts k then
    ((mapIndex r.opts k).1.head?, { r with opts := (mapIndex r.opts k).2 })
  else (some d, r)

/-- Loop body of `ParseResult::optionOrDef(keys, def)`. -/
def optionOrDefKeysGo (m : OptMap) : List String → String → Option String × OptMap
  | [], d => (some d, m)
  | k :: ks, d =>
    if containsOM m k then ((mapIndex m k).1.head?, (mapIndex m k).2)
    else optionOrDefKeysGo m ks d

/-- `ParseResult::optionOrDef(keys, def)`. -/
def optionOrDefKeys (r : ParseResult) (keys : List String) (d : String) :
    Option String × ParseResult :=
  ((optionOrDefKeysGo r.opts keys d).1, { r with opts := (optionOrDefKeysGo r.opts keys d).2 })

/-- Loop body of `ParseResult::option(keys)`. -/
def optionKeysGo (m : OptMap) : List String → LookupOutcome × OptMap
  | [] => (.err .keyNotFound, m)
  | k :: ks =>
    if containsOM m k then
      (match (mapIndex m k).1.head? with
       | some v => .ok v
       | none => .undef,
       (mapIndex m k).2)
    else optionKeysGo m ks

/-- `ParseResult::option(keys)`: strict multi-key lookup. -/
def optionKeys (r : ParseResult) (keys : List String) : LookupOutcome × ParseResult :=
  ((optionKeysGo r.opts keys).1, { r with opts := (optionKeysGo r.opts keys).2 })

/-- `ParseResult::option(key)`: delegates to the list overload. -/
def optionSingle (r : ParseResult) (k : String) : LookupOutcome × ParseResult :=
  optionKeys r [k]

/-- `ParseResult::options(key)`: the full value sequence of one key. -/
def optionsOne (r : ParseResult) (k : String) : ValList × ParseResult :=
  if containsOM r.opts k then
    ((mapIndex r.opts k).1, { r with opts := (mapIndex r.opts k).2 })
  else ([], r)

/-- Loop body of `ParseResult::options(keys)`. -/
def optionsManyGo (m : OptMap) (acc : ValList) : List String → ValList × OptMap
  | [] => (acc, m)
  | k :: ks =>
    if containsOM m k then optionsManyGo (mapIndex m k).2 (acc ++ (mapIndex m k).1) ks
    else optionsManyGo m acc ks

/-- `ParseResult::options(keys)`: concatenated value sequences. -/
def optionsMany (r : ParseResult) (keys : List String) : ValList × ParseResult :=
  ((optionsManyGo r.opts [] keys).1, { r with opts := (optionsManyGo r.opts [] keys).2 })

/-- Category a scanned token falls into. -/
inductive TokCat where
  | positional
  | optName
  | optValue
  | flagName
deriving DecidableEq, Repr

/-- The category the scan assigns to one token, given the pending option. -/
def catOf (prev : Option String) (t : String) : TokCat :=
  match tokKind t with
  | .flagT => .flagName
  | .optT => .optName
  | .bareT =>
    match prev with
    | some _ => .optValue
    | none => .positional

/-- The pending option name after scanning one token. -/
def nextPrev (prev : Option String) (t : String) : Option String :=
  match tokKind t with
  | .flagT => none
  | .optT => some (stripOne t)
  | .bareT => none

/-- The classification trace of a token list: one category per token. -/
def cats : Option String → List String → List TokCat
  | _, [] => []
  | prev, t :: ts => catOf prev t :: cats (nextPrev prev t) ts

/-- Total number of stored option values. -/
def totalVals : OptMap → Nat
  | [] => 0
  | (_, vs) :: rest => vs.length + totalVals rest

/-- Spec-side description of the values the scan attaches to option name
`k`: the bare tokens consumed while `k` is the pending option name, in
encounter order. -/
def attachedVals (k : String) : Option String → List String → List String
  | _, [] => []
  | prev, t :: ts =>
    match tokKind t with
    | .flagT => attachedVals k none ts
    | .optT => attachedVals k (some (stripOne t)) ts
    | .bareT =>
      match prev with
      | some p => (if p = k then [t] else []) ++ attachedVals k none ts
      | none => attachedVals k none ts

/-- Option name `k` is introduced during the scan: it is pending at entry
or some token takes the option branch with remainder `k`. -/
abbrev introducedP (k : String) (prev : Option String) (toks : List String) : Prop :=
  prev = some k ∨ ∃ t ∈ toks, tokKind t = .optT ∧ stripOne t = k

/-- Spec-side flag-name stripping, following the spec's words: a flag name
is the token with ALL of its leading dashes removed. -/
def specStripDashes (t : String) : String :=
  String.mk (t.data.dropWhile (fun c => c = '-'))

theorem containsOM_iff_isSome (m : OptMap) (k : String) :
    containsOM m k = true ↔ (lookupOM m k).isSome := by
  induction m with
  | nil => simp [containsOM, lookupOM]
  | cons p rest ih =>
    obtain ⟨k', vs⟩ := p
    by_cases h : k' = k <;> simp [containsOM, lookupOM, h, ih]

theorem lookupOM_append (m₁ m₂ : OptMap) (k : String) :
    lookupOM (m₁ ++ m₂) k = ((lookupOM m₁ k).or (lookupOM m₂ k)) := by
  induction m₁ with
  | nil => simp [lookupOM]
  | cons p rest ih =>
    obtain ⟨k', vs⟩ := p
    by_cases h : k' = k <;> simp [lookupOM, h, ih]

theorem lookupOM_appendVal_self (m : OptMap) (k v : String)
    (h : containsOM m k = true) :
    lookupOM (appendVal m k v) k = some ((lookupOM m k).getD [] ++ [v]) := by
  induction m with
  | nil => simp [containsOM] at h
  | cons p rest ih =>
    obtain ⟨k', vs⟩ := p
    by_cases hk : k' = k
    · simp [appendVal, lookupOM, hk]
    · simp [containsOM, hk] at h
      simp [appendVal, lookupOM, hk, ih h]

theorem lookupOM_appendVal_ne (m : OptMap) (k v k' : String) (h : k' ≠ k) :
    lookupOM (appendVal m k v) k' = lookupOM m k' := by
  induction m with
  | nil => simp [appendVal]
  | cons p rest ih =>
    obtain ⟨k₀, vs⟩ := p
    by_cases hk : k₀ = k
    · subst hk
      simp [appendVal, lookupOM, Ne.symm h]
    · by_cases hk' : k₀ = k' <;> simp [appendVal, lookupOM, hk, hk', h, ih]

theorem lookupOM_optionKV_self (m : OptMap) (k v : String) :
    lookupOM (optionKV m k v) k = some ((lookupOM m k).getD [] ++ [v]) := by
  unfold optionKV
  by_cases h : containsOM m k = true
  · simp [h, lookupOM_appendVal_self m k v h]
  · have hnone : lookupOM m k = none := by
      rcases hs : lookupOM m k with _ | vs
      · rfl
      · exact absurd ((containsOM_iff_isSome m k).mpr (by simp [hs])) h
    simp [h, lookupOM_append, hnone, lookupOM]

theorem lookupOM_optionKV_ne (m : OptMap) (k v k' : String) (h : k' ≠ k) :
    lookupOM (optionKV m k v) k' = lookupOM m k' := by
  unfold optionKV
  by_cases hc : containsOM m k = true
  · simp [hc, lookupOM_appendVal_ne m k v k' h]
  · simp [hc, lookupOM_append, lookupOM, Ne.symm h]

theorem lookupOM_optionK_self (m : OptMap) (k : String) :
    lookupOM (optionK m k) k = some ((lookupOM m k).getD []) := by
  unfold optionK
  by_cases h : containsOM m k = true
  · rcases hs : lookupOM m k with _ | vs
    · exact absurd ((containsOM_iff_isSome m k).mp h) (by simp [hs])
    · simp [h, hs]
  · have hnone : lookupOM m k = none := by
      rcases hs : lookupOM m k with _ | vs
      · rfl
      · exact absurd ((containsOM_iff_isSome m k).mpr (by simp [hs])) h
    simp [h, lookupOM_append, hnone, lookupOM]

theorem lookupOM_optionK_ne (m : OptMap) (k k' : String) (h : k' ≠ k) :
    lookupOM (optionK m k) k' = lookupOM m k' := by
  unfold optionK
  by_cases hc : containsOM m k = true
  · simp [hc]
  · simp [hc, lookupOM_append, lookupOM, Ne.symm h]

theorem lookupOM_regPrev (m : OptMap) (prev : Option String) (k : String) :
    lookupOM (regPrev m prev) k =
      if prev = some k then some ((lookupOM m k).getD []) else lookupOM m k := by
  rcases prev with _ | p
  · simp [regPrev]
  · by_cases h : p = k
    · subst h
      simp [regPrev, lookupOM_optionK_self]
    · simp [regPrev, lookupOM_optionK_ne m p k (Ne.symm h), h]

theorem lookupOM_getD_regPrev (m : OptMap) (prev : Option String) (k : String) :
    (lookupOM (regPrev m prev) k).getD [] = (lookupOM m k).getD [] := by
  rw [lookupOM_regPrev]
  split <;> simp

theorem attachedVals_nil (k : String) :
    ∀ (toks : List String) (prev : Option String),
      (¬ ∃ t ∈ toks, tokKind t = .optT ∧ stripOne t = k) →
      (∀ p, prev = some p → p ≠ k) →
      attachedVals k prev toks = [] := by
  intro toks
  induction toks with
  | nil => intro prev _ _; rfl
  | cons t ts ih =>
    intro prev hno hp
    have hno' : ¬ ∃ t' ∈ ts, tokKind t' = .optT ∧ stripOne t' = k := by
      rintro ⟨t', ht', h1, h2⟩
      exact hno ⟨t', by simp [ht'], h1, h2⟩
    cases hk : tokKind t with
    | flagT =>
      simp only [attachedVals, hk]
      exact ih none hno' (by intro p hp'; cases hp')
    | optT =>
      simp only [attachedVals, hk]
      refine ih (some (stripOne t)) hno' ?_
      intro p hp' hpk
      refine hno ⟨t, by simp, hk, ?_⟩
      cases hp'
      exact hpk
    | bareT =>
      cases prev with
      | none =>
        simp only [attachedVals, hk]
        exact ih none hno' (by intro p hp'; cases hp')
      | some p =>
        have hpk : ¬ p = k := hp p rfl
        simp only [attachedVals, hk, hpk, if_false, List.nil_append]
        exact ih none hno' (by intro q hq; cases hq)

theorem scanGo_lookup_not_introduced :
    ∀ (toks args : List String) (opts : OptMap) (flags : List String)
      (prev : Option String) (k : String),
      ¬ introducedP k prev toks →
      lookupOM (scanGo args opts flags prev toks).opts k = lookupOM opts k := by
  intro toks
  induction toks with
  | nil =>
    intro args opts flags prev k h
    have hp : ¬ prev = some k := fun hp => h (Or.inl hp)
    simp only [scanGo, lookupOM_regPrev, hp, if_false]
  | cons t ts ih =>
    intro args opts flags prev k h
    have hp : ¬ prev = some k := fun hp => h (Or.inl hp)
    have hno : ¬ ∃ t' ∈ ts, tokKind t' = .optT ∧ stripOne t' = k := by
      rintro ⟨t', ht', h1, h2⟩
      exact h (Or.inr ⟨t', by simp [ht'], h1, h2⟩)
    cases hk : tokKind t with
    | flagT =>
      simp only [scanGo, hk]
      rw [ih _ _ _ _ _ (fun hc => hc.elim (fun h' => by cases h') hno)]
      simp [lookupOM_regPrev, hp]
    | optT =>
      have hs : ¬ stripOne t = k := by
        intro hs
        exact h (Or.inr ⟨t, by simp, hk, hs⟩)
      simp only [scanGo, hk]
      rw [ih _ _ _ _ _ (fun hc => hc.elim (fun h' => hs (Option.some.inj h')) hno)]
      simp [lookupOM_regPrev, hp]
    | bareT =>
      cases prev with
      | none =>
        simp only [scanGo, hk]
        exact ih _ _ _ _ _ (fun hc => hc.elim (fun h' => by cases h') hno)
      | some p =>
        have hpk : k ≠ p := by
          intro hkp
          exact hp (by rw [hkp])
        simp only [scanGo, hk]
        rw [ih _ _ _ _ _ (fun hc => hc.elim (fun h' => by cases h') hno)]
        exact lookupOM_optionKV_ne opts p t k hpk

theorem scanGo_lookup_introduced :
    ∀ (toks args : List String) (opts : OptMap) (flags : List String)
      (prev : Option String) (k : String),
      introducedP k prev toks →
      lookupOM (scanGo args opts flags prev toks).opts k =
        some ((lookupOM opts k).getD [] ++ attachedVals k prev toks) := by
  intro toks
  induction toks with
  | nil =>
    intro args opts flags prev k h
    have hp : prev = some k := by
      rcases h with h | ⟨t, ht, _⟩
      · exact h
      · cases ht
    simp [scanGo, lookupOM_regPrev, hp, attachedVals]
  | cons t ts ih =>
    intro args opts flags prev k h
    cases hk : tokKind t with
    | flagT =>
      simp only [scanGo, attachedVals, hk]
      by_cases hin : introducedP k none ts
      · rw [ih _ _ _ _ _ hin, lookupOM_getD_regPrev]
      · have hp : prev = some k := by
          rcases h with h | ⟨t', ht', h1, h2⟩
          · exact h
          · rcases List.mem_cons.mp ht' with h' | h'
            · rw [h'] at h1; rw [h1] at hk; cases hk
            · exact absurd (Or.inr ⟨t', h', h1, h2⟩) hin
        have hnone : attachedVals k none ts = [] := by
          refine attachedVals_nil k ts none ?_ (by intro p hp'; cases hp')
          intro hc
          exact hin (Or.inr hc)
        rw [scanGo_lookup_not_introduced _ _ _ _ _ _ hin, hnone]
        simp [lookupOM_regPrev, hp]
    | optT =>
      simp only [scanGo, attachedVals, hk]
      by_cases hin : introducedP k (some (stripOne t)) ts
      · rw [ih _ _ _ _ _ hin, lookupOM_getD_regPrev]
      · have hs : ¬ stripOne t = k := by
          intro hs
          exact hin (Or.inl (by rw [hs]))
        have hp : prev = some k := by
          rcases h with h | ⟨t', ht', h1, h2⟩
          · exact h
          · rcases List.mem_cons.mp ht' with h' | h'
            · rw [h'] at h2; exact absurd h2 hs
            · exact absurd (Or.inr ⟨t', h', h1, h2⟩) hin
        have hnone : attachedVals k (some (stripOne t)) ts = [] := by
          refine attachedVals_nil k ts (some (stripOne t)) ?_ ?_
          · intro hc
            exact hin (Or.inr hc)
          · intro p hp' hpk
            apply hs
            injection hp' with hp''
            rw [hp'', hpk]
        rw [scanGo_lookup_not_introduced _ _ _ _ _ _ hin, hnone]
        simp [lookupOM_regPrev, hp]
    | bareT =>
      cases prev with
      | none =>
        have hin : introducedP k none ts := by
          rcases h with h | ⟨t', ht', h1, h2⟩
          · cases h
          · rcases List.mem_cons.mp ht' with h' | h'
            · rw [h'] at h1; rw [h1] at hk; cases hk
            · exact Or.inr ⟨t', h', h1, h2⟩
        simp only [scanGo, attachedVals, hk]
        exact ih _ _ _ _ _ hin
      | some p =>
        simp only [scanGo, attachedVals, hk]
        by_cases hin : introducedP k none ts
        · rw [ih _ _ _ _ _ hin]
          by_cases hpk : p = k
          · subst hpk
            rw [lookupOM_optionKV_self]
            simp
          · rw [lookupOM_optionKV_ne opts p t k (Ne.symm hpk)]
            simp [hpk]
        · have hp : p = k := by
            rcases h with h | ⟨t', ht', h1, h2⟩
            · injection h
            · rcases List.mem_cons.mp ht' with h' | h'
              · rw [h'] at h1; rw [h1] at hk; cases hk
              · exact absurd (Or.inr ⟨t', h', h1, h2⟩) hin
          rw [hp]
          have hnone : attachedVals k none ts = [] := by
            refine attachedVals_nil k ts none ?_ (by intro q hq; cases hq)
            intro hc
            exact hin (Or.inr hc)
          rw [scanGo_lookup_not_introduced _ _ _ _ _ _ hin, hnone]
          rw [lookupOM_optionKV_self]
          simp

theorem scanGo_flags :
    ∀ (toks args : List String) (opts : OptMap) (flags : List String)
      (prev : Option String),
      (scanGo args opts flags prev toks).flags =
        flags ++ (toks.filter (fun t => decide (tokKind t = .flagT))).map stripTwo := by
  intro toks
  induction toks with
  | nil => intro args opts flags prev; simp [scanGo]
  | cons t ts ih =>
    intro args opts flags prev
    cases hk : tokKind t with
    | flagT => simp [scanGo, hk, ih]
    | optT => simp [scanGo, hk, ih]
    | bareT =>
      cases prev with
      | none => simp [scanGo, hk, ih]
      | some p => simp [scanGo, hk, ih]

theorem totalVals_append (m₁ m₂ : OptMap) :
    totalVals (m₁ ++ m₂) = totalVals m₁ + totalVals m₂ := by
  induction m₁ with
  | nil => simp [totalVals]
  | cons p rest ih => obtain ⟨k, vs⟩ := p; simp [totalVals, ih]; omega

theorem totalVals_optionK (m : OptMap) (k : String) :
    totalVals (optionK m k) = totalVals m := by
  unfold optionK
  split
  · rfl
  · simp [totalVals_append, totalVals]

theorem totalVals_regPrev (m : OptMap) (prev : Option String) :
    totalVals (regPrev m prev) = totalVals m := by
  cases prev with
  | none => rfl
  | some p => simp [regPrev, totalVals_optionK]

theorem totalVals_appendVal (m : OptMap) (k v : String)
    (h : containsOM m k = true) :
    totalVals (appendVal m k v) = totalVals m + 1 := by
  induction m with
  | nil => simp [containsOM] at h
  | cons p rest ih =>
    obtain ⟨k', vs⟩ := p
    by_cases hk : k' = k
    · simp [appendVal, totalVals, hk]
      omega
    · simp [containsOM, hk] at h
      simp [appendVal, totalVals, hk, ih h]
      omega

theorem totalVals_optionKV (m : OptMap) (k v : String) :
    totalVals (optionKV m k v) = totalVals m + 1 := by
  unfold optionKV
  split
  · rw [totalVals_appendVal]
    assumption
  · simp [totalVals_append, totalVals]

theorem scanGo_counts :
    ∀ (toks args : List String) (opts : OptMap) (flags : List String)
      (prev : Option String),
      (scanGo args opts flags prev toks).args.length
          = args.length + (cats prev toks).count .positional ∧
        totalVals (scanGo args opts flags prev toks).opts
          = totalVals opts + (cats prev toks).count .optValue ∧
        (scanGo args opts flags prev toks).flags.length
          = flags.length + (cats prev toks).count .flagName := by
  intro toks
  induction toks with
  | nil =>
    intro args opts flags prev
    simp [scanGo, cats, totalVals_regPrev]
  | cons t ts ih =>
    intro args opts flags prev
    cases hk : tokKind t with
    | flagT =>
      obtain ⟨h1, h2, h3⟩ := ih args (regPrev opts prev) (flags ++ [stripTwo t]) none
      refine ⟨?_, ?_, ?_⟩ <;>
        simp [scanGo, hk, cats, catOf, nextPrev, List.count_cons, h1, h2, h3,
          totalVals_regPrev] <;> omega
    | optT =>
      obtain ⟨h1, h2, h3⟩ := ih args (regPrev opts prev) flags (some (stripOne t))
      refine ⟨?_, ?_, ?_⟩ <;>
        simp [scanGo, hk, cats, catOf, nextPrev, List.count_cons, h1, h2, h3,
          totalVals_regPrev] <;> omega
    | bareT =>
      cases prev with
      | none =>
        obtain ⟨h1, h2, h3⟩ := ih (args ++ [t]) opts flags none
        refine ⟨?_, ?_, ?_⟩ <;>
          simp [scanGo, hk, cats, catOf, nextPrev, List.count_cons, h1, h2, h3] <;> omega
      | some p =>
        obtain ⟨h1, h2, h3⟩ := ih args (optionKV opts p t) flags none
        refine ⟨?_, ?_, ?_⟩ <;>
          simp [scanGo, hk, cats, catOf, nextPrev, List.count_cons, h1, h2, h3,
            totalVals_optionKV] <;> omega

theorem cats_length :
    ∀ (toks : List String) (prev : Option String), (cats prev toks).length = toks.length := by
  intro toks
  induction toks with
  | nil => intro prev; rfl
  | cons t ts ih => intro prev; simp [cats, ih]

theorem tokCat_count_partition (l : List TokCat) :
    l.count .positional + l.count .optName + l.count .optValue + l.count .flagName
      = l.length := by
  induction l with
  | nil => rfl
  | cons c cs ih =>
    cases c <;> simp [List.count_cons] <;> omega

def keysOf (m : OptMap) : List String := m.map Prod.fst

theorem keysOf_appendVal (m : OptMap) (k v : String) :
    keysOf (appendVal m k v) = keysOf m := by
  induction m with
  | nil => rfl
  | cons p rest ih =>
    obtain ⟨k', vs⟩ := p
    by_cases hk : k' = k <;> simp [appendVal, keysOf, hk] <;> simpa [keysOf] using ih

theorem contains_mem_keysOf (m : OptMap) (k : String)
    (h : containsOM m k = true) : k ∈ keysOf m := by
  induction m with
  | nil => simp [containsOM] at h
  | cons p rest ih =>
    obtain ⟨k', vs⟩ := p
    by_cases hk : k' = k
    · simp [keysOf, hk]
    · simp [containsOM, hk] at h
      simp [keysOf]
      right
      simpa [keysOf] using ih h

theorem not_contains_not_mem_keysOf (m : OptMap) (k : String)
    (h : containsOM m k = false) : k ∉ keysOf m := by
  induction m with
  | nil => simp [keysOf]
  | cons p rest ih =>
    obtain ⟨k', vs⟩ := p
    by_cases hk : k' = k
    · simp [containsOM, hk] at h
    · simp [containsOM, hk] at h
      have hrest : k ∉ keysOf rest := ih h
      simp only [keysOf, List.map_cons, List.mem_cons, not_or]
      exact ⟨fun h' => hk h'.symm, by simpa [keysOf] using hrest⟩

theorem nodup_optionK (m : OptMap) (k : String) (h : (keysOf m).Nodup) :
    (keysOf (optionK m k)).Nodup := by
  unfold optionK
  split
  · exact h
  · rename_i hc
    have : keysOf (m ++ [(k, [])]) = keysOf m ++ [k] := by simp [keysOf]
    rw [this]
    refine List.nodup_append.mpr ⟨h, List.nodup_singleton k, ?_⟩
    intro a ha hb
    simp at hb
    subst hb
    exact not_contains_not_mem_keysOf m a (by simpa using hc) ha

theorem nodup_optionKV (m : OptMap) (k v : String) (h : (keysOf m).Nodup) :
    (keysOf (optionKV m k v)).Nodup := by
  unfold optionKV
  split
  · rwa [keysOf_appendVal]
  · rename_i hc
    have : keysOf (m ++ [(k, [v])]) = keysOf m ++ [k] := by simp [keysOf]
    rw [this]
    refine List.nodup_append.mpr ⟨h, List.nodup_singleton k, ?_⟩
    intro a ha hb
    simp at hb
    subst hb
    exact not_contains_not_mem_keysOf m a (by simpa using hc) ha

theorem nodup_regPrev (m : OptMap) (prev : Option String)
    (h : (keysOf m).Nodup) : (keysOf (regPrev m prev)).Nodup := by
  cases prev with
  | none => exact h
  | some p => exact nodup_optionK m p h

theorem scanGo_nodup :
    ∀ (toks args : List String) (opts : OptMap) (flags : List String)
      (prev : Option String),
      (keysOf opts).Nodup → (keysOf (scanGo args opts flags prev toks).opts).Nodup := by
  intro toks
  induction toks with
  | nil =>
    intro args opts flags prev h
    exact nodup_regPrev opts prev h
  | cons t ts ih =>
    intro args opts flags prev h
    cases hk : tokKind t with
    | flagT =>
      simp only [scanGo, hk]
      exact ih _ _ _ _ (nodup_regPrev opts prev h)
    | optT =>
      simp only [scanGo, hk]
      exact ih _ _ _ _ (nodup_regPrev opts prev h)
    | bareT =>
      cases prev with
      | none =>
        simp only [scanGo, hk]
        exact ih _ _ _ _ h
      | some p =>
        simp only [scanGo, hk]
        exact ih _ _ _ _ (nodup_optionKV opts p t h)

theorem mapIndex_of_contains (m : OptMap) (k : String)
    (h : containsOM m k = true) :
    mapIndex m k = ((lookupOM m k).getD [], m) := by
  rw [containsOM_iff_isSome] at h
  rcases hs : lookupOM m k with _ | vs
  · rw [hs] at h; cases h
  · simp [mapIndex, hs]

theorem optionOrDefKeysGo_snd (m : OptMap) (keys : List String) (d : String) :
    (optionOrDefKeysGo m keys d).2 = m := by
  induction keys with
  | nil => rfl
  | cons k ks ih =>
    by_cases hc : containsOM m k = true
    · simp [optionOrDefKeysGo, hc, mapIndex_of_contains m k hc]
    · simp [optionOrDefKeysGo, hc, ih]

theorem optionKeysGo_snd (m : OptMap) (keys : List String) :
    (optionKeysGo m keys).2 = m := by
  induction keys with
  | nil => rfl
  | cons k ks ih =>
    by_cases hc : containsOM m k = true
    · simp [optionKeysGo, hc, mapIndex_of_contains m k hc]
    · simp [optionKeysGo, hc, ih]

theorem optionsManyGo_snd (keys : List String) :
    ∀ (m : OptMap) (acc : ValList), (optionsManyGo m acc keys).2 = m := by
  induction keys with
  | nil => intro m acc; rfl
  | cons k ks ih =>
    intro m acc
    by_cases hc : containsOM m k = true
    · simp [optionsManyGo, hc, mapIndex_of_contains m k hc, ih]
    · simp [optionsManyGo, hc, ih]

theorem optionOrDefKeysGo_spec (m : OptMap) (d : String) :
    ∀ keys : List String,
      (∀ k' ∈ keys, lookupOM m k' ≠ some []) →
      ((optionOrDefKeysGo m keys d).1 = some d ∨
        ∃ k' v vs, k' ∈ keys ∧ lookupOM m k' = some (v :: vs) ∧
          (optionOrDefKeysGo m keys d).1 = some v) := by
  intro keys
  induction keys with
  | nil => intro _; left; rfl
  | cons k ks ih =>
    intro hne
    by_cases hc : containsOM m k = true
    · have hs : (lookupOM m k).isSome := (containsOM_iff_isSome m k).mp hc
      rcases hl : lookupOM m k with _ | vs
      · rw [hl] at hs; cases hs
      · rcases vs with _ | ⟨v, vs'⟩
        · exact absurd hl (hne k (by simp))
        · right
          refine ⟨k, v, vs', by simp, hl, ?_⟩
          simp [optionOrDefKeysGo, hc, mapIndex_of_contains m k hc, hl]
    · have := ih (fun k' hk' => hne k' (by simp [hk']))
      rcases this with h | ⟨k', v, vs, hk', hl, he⟩
      · left
        simpa [optionOrDefKeysGo, hc] using h
      · right
        exact ⟨k', v, vs, by simp [hk'], hl, by simpa [optionOrDefKeysGo, hc] using he⟩

theorem optionKeysGo_err_iff (m : OptMap) :
    ∀ keys : List String,
      (optionKeysGo m keys).1 = .err .keyNotFound ↔
        ∀ k ∈ keys, containsOM m k = false := by
  intro keys
  induction keys with
  | nil => simp [optionKeysGo]
  | cons k ks ih =>
    by_cases hc : containsOM m k = true
    · simp only [optionKeysGo, hc, if_true]
      constructor
      · intro h
        rcases hh : ((mapIndex m k).1).head? with _ | v <;> simp [hh] at h
      · intro h
        have := h k (by simp)
        rw [hc] at this
        cases this
    · simp only [optionKeysGo, hc, Bool.false_eq_true, if_false]
      rw [ih]
      constructor
      · intro h k' hk'
        rcases List.mem_cons.mp hk' with h' | h'
        · subst h'
          simpa using hc
        · exact h k' h'
      · intro h k' hk'
        exact h k' (by simp [hk'])

theorem optionKeysGo_found (m : OptMap) :
    ∀ (keys : List String) (k v : String) (vs : ValList),
      keys.find? (containsOM m) = some k →
      lookupOM m k = some (v :: vs) →
      (optionKeysGo m keys).1 = .ok v := by
  intro keys
  induction keys with
  | nil => intro k v vs h; cases h
  | cons k₀ ks ih =>
    intro k v vs hf hl
    by_cases hc : containsOM m k₀ = true
    · rw [List.find?_cons_of_pos _ hc] at hf
      have hk : k₀ = k := by injection hf
      subst hk
      simp [optionKeysGo, hc, mapIndex_of_contains m k₀ hc, hl]
    · rw [List.find?_cons_of_neg _ (by simpa using hc)] at hf
      simp only [optionKeysGo, hc, Bool.false_eq_true, if_false]
      exact ih k v vs hf hl

theorem optionKeysGo_empty_vals (m : OptMap) :
    ∀ (keys : List String) (k : String),
      keys.find? (containsOM m) = some k →
      lookupOM m k = some [] →
      (optionKeysGo m keys).1 = .undef := by
  intro keys
  induction keys with
  | nil => intro k h; cases h
  | cons k₀ ks ih =>
    intro k hf hl
    by_cases hc : containsOM m k₀ = true
    · rw [List.find?_cons_of_pos _ hc] at hf
      have hk : k₀ = k := by injection hf
      subst hk
      simp [optionKeysGo, hc, mapIndex_of_contains m k₀ hc, hl]
    · rw [List.find?_cons_of_neg _ (by simpa using hc)] at hf
      simp only [optionKeysGo, hc, Bool.false_eq_true, if_false]
      exact ih k hf hl

/-- C1, counterexample.  The claim says a dash-only token is inert, so the
Result of classifying `["-"]` would equal the Result of classifying `[]`.
In the code a single `-` takes the option branch (`arg[1]` reads the
terminating NUL, not `'-'`) and introduces an option named `""`, so the
two Results differ. -/
theorem c1_dash_only_counterexample :
    classify ["-"] ≠ classify [] ∧
    classify ["-"] = { args := [], opts := [("", [])], flags := [] } ∧
    classify [] = { args := [], opts := [], flags := [] } := by
  decide

/-- C1, amended.  A dash-only token is never skipped: a single `-`
introduces an option whose name is the empty string, and a dash-only token
of length at least two is recorded as a flag named the token with its
first two dashes removed (`substr(2)`). -/
theorem c1_dash_only_amended :
    ∀ t : String, t.data ≠ [] → (∀ c ∈ t.data, c = '-') →
      (t.data.length = 1 → classify [t] = { args := [], opts := [("", [])], flags := [] }) ∧
      (2 ≤ t.data.length → classify [t] = { args := [], opts := [], flags := [stripTwo t] }) := by
  intro t hne hall
  obtain ⟨data⟩ := t
  rcases data with _ | ⟨c, cs⟩
  · exact absurd rfl hne
  · have hc : c = '-' := hall c (by simp)
    subst hc
    constructor
    · intro h1
      have hcs : cs = [] := by
        rcases cs with _ | ⟨c', cs'⟩
        · rfl
        · simp at h1
      subst hcs
      decide
    · intro h2
      rcases cs with _ | ⟨c', cs'⟩
      · simp at h2
      · have hc' : c' = '-' := hall c' (by simp)
        subst hc'
        have hk : tokKind (String.mk ('-' :: '-' :: cs')) = .flagT := rfl
        simp [classify, scanGo, hk, regPrev]

/-- C1 amended, witness at the dash-only token `"---"`. -/
theorem c1_dash_only_witness :
    ("---" : String).data ≠ [] ∧ (∀ c ∈ ("---" : String).data, c = '-') ∧
      classify ["---"] = { args := [], opts := [], flags := [stripTwo "---"] } :=
  ⟨by decide, by decide, (c1_dash_only_amended "---" (by decide) (by decide)).2 (by decide)⟩

/-- C2, counterexample.  The claim says a flag token's recorded name is the
token with ALL leading dashes stripped, so `"---x"` would record `"x"`.
The code strips exactly two characters (`arg.substr(2)`), recording
`"-x"`. -/
theorem c2_flag_strip_counterexample :
    (classify ["---x"]).flags = ["-x"] ∧
    specStripDashes "---x" = "x" ∧
    ("-x" : String) ≠ "x" := by
  decide

/-- C2, amended.  For every token classified as a flag (first two
characters `-`), the name appended to the flag sequence is the token with
exactly its first two dashes stripped; the whole flag sequence is the
in-order image of the flag tokens under that stripping. -/
theorem c2_flag_strip_amended :
    ∀ toks : List String,
      (classify toks).flags =
        (toks.filter (fun t => decide (tokKind t = .flagT))).map stripTwo := by
  intro toks
  simpa using scanGo_flags toks [] [] [] none

/-- C3, counterexample.  The claim says the or-default option lookup never
fails even when the looked-up key is present with an empty value sequence.
On the Result of classifying `["-opt"]`, `optionOrDef("opt", "d")` reaches
`_opts["opt"].front()` on an empty `std::list` (modelled as `none`),
instead of returning a stored value or the default. -/
theorem c3_or_default_counterexample :
    (optionOrDefS (classify ["-opt"]) "opt" "d").1 = none ∧
    (optionOrDefS (classify ["-opt"]) "opt" "d").1 ≠ some "d" := by
  decide

/-- C3, amended.  Positional or-default lookup is total and returns a
stored argument or the default; the option or-default lookups return a
stored first value or the default whenever every matched key has a
nonempty value sequence (the empty-sequence case hits `front()` of an
empty list and is undefined). -/
theorem c3_or_default_amended :
    ∀ (r : ParseResult) (i : Int) (d k : String) (keys : List String),
      (argOrDef r i d ∈ r.args ∨ argOrDef r i d = d) ∧
      (lookupOM r.opts k ≠ some [] →
        ((optionOrDefS r k d).1 = some d ∨
          ∃ v vs, lookupOM r.opts k = some (v :: vs) ∧ (optionOrDefS r k d).1 = some v)) ∧
      ((∀ k' ∈ keys, lookupOM r.opts k' ≠ some []) →
        ((optionOrDefKeys r keys d).1 = some d ∨
          ∃ k' v vs, k' ∈ keys ∧ lookupOM r.opts k' = some (v :: vs) ∧
            (optionOrDefKeys r keys d).1 = some v)) := by
  intro r i d k keys
  refine ⟨?_, ?_, ?_⟩
  · unfold argOrDef
    split
    · right; rfl
    · rename_i hlt
      left
      rw [List.getD_eq_getElem r.args d (by omega)]
      exact List.getElem_mem _
  · intro hne
    by_cases hc : containsOM r.opts k = true
    · have hs : (lookupOM r.opts k).isSome := (containsOM_iff_isSome r.opts k).mp hc
      rcases hl : lookupOM r.opts k with _ | vs
      · rw [hl] at hs; cases hs
      · rcases vs with _ | ⟨v, vs'⟩
        · exact absurd hl hne
        · right
          refine ⟨v, vs', rfl, ?_⟩
          simp [optionOrDefS, hc, mapIndex_of_contains r.opts k hc, hl]
    · left
      simp [optionOrDefS, hc]
  · intro hne
    have h := optionOrDefKeysGo_spec r.opts d keys hne
    rcases h with h | ⟨k', v, vs, hk', hl, he⟩
    · left
      simpa [optionOrDefKeys] using h
    · right
      exact ⟨k', v, vs, hk', hl, by simpa [optionOrDefKeys] using he⟩

/-- C3 amended, witness: on the Result of classifying `["-k", "v"]` the
matched key has the nonempty value sequence `["v"]`. -/
theorem c3_or_default_witness :
    (∀ k' ∈ ["k"], lookupOM (classify ["-k", "v"]).opts k' ≠ some []) ∧
      ((optionOrDefKeys (classify ["-k", "v"]) ["k"] "d").1 = some "d" ∨
        ∃ k' v vs, k' ∈ ["k"] ∧ lookupOM (classify ["-k", "v"]).opts k' = some (v :: vs) ∧
          (optionOrDefKeys (classify ["-k", "v"]) ["k"] "d").1 = some v) :=
  ⟨by decide, (c3_or_default_amended (classify ["-k", "v"]) 0 "d" "k" ["k"]).2.2 (by decide)⟩

/-- C4, counterexample.  The claim says strict option lookup on a present
key returns the first value of that key's value sequence.  On the Result
of classifying `["-opt"]` the key `"opt"` is present but valueless, and
`option({"opt"})` reaches `front()` of an empty `std::list` (modelled as
`undef`): it neither raises KeyNotFound nor returns a value. -/
theorem c4_strict_option_counterexample :
    containsOM (classify ["-opt"]).opts "opt" = true ∧
    (optionKeys (classify ["-opt"]) ["opt"]).1 = LookupOutcome.undef ∧
    LookupOutcome.undef ≠ LookupOutcome.err ArgxError.keyNotFound := by
  decide

/-- C4, amended.  Strict multi-key option lookup raises KeyNotFound if and
only if none of the keys is in the mapping; when the first matching key
(in alias order) has a nonempty value sequence it returns that sequence's
first value; when the first matching key is valueless the behaviour is the
undefined `front()` of an empty list; the Result is unchanged in every
outcome. -/
theorem c4_strict_option_amended :
    ∀ (r : ParseResult) (keys : List String),
      ((optionKeys r keys).1 = .err .keyNotFound ↔
        ∀ k ∈ keys, containsOM r.opts k = false) ∧
      (∀ (k v : String) (vs : ValList),
        keys.find? (containsOM r.opts) = some k →
        lookupOM r.opts k = some (v :: vs) →
        (optionKeys r keys).1 = .ok v) ∧
      (∀ k : String,
        keys.find? (containsOM r.opts) = some k →
        lookupOM r.opts k = some [] →
        (optionKeys r keys).1 = .undef) ∧
      (optionKeys r keys).2 = r := by
  intro r keys
  obtain ⟨a, o, f⟩ := r
  refine ⟨?_, ?_, ?_, ?_⟩
  · simpa [optionKeys] using optionKeysGo_err_iff o keys
  · intro k v vs hf hl
    simpa [optionKeys] using optionKeysGo_found o keys k v vs hf hl
  · intro k hf hl
    simpa [optionKeys] using optionKeysGo_empty_vals o keys k hf hl
  · simp [optionKeys, optionKeysGo_snd]

/-- C4 amended, witness: alias list `["z", "a"]` against the Result of
classifying `["-a", "1"]`; the first matching key is `"a"` and its first
value `"1"` is returned. -/
theorem c4_strict_option_witness :
    (["z", "a"].find? (containsOM (classify ["-a", "1"]).opts) = some "a") ∧
      lookupOM (classify ["-a", "1"]).opts "a" = some ["1"] ∧
      (optionKeys (classify ["-a", "1"]) ["z", "a"]).1 = LookupOutcome.ok "1" :=
  ⟨by decide, by decide,
    (c4_strict_option_amended (classify ["-a", "1"]) ["z", "a"]).2.1 "a" "1" []
      (by decide) (by decide)⟩

/-- C5.  Strict positional lookup raises IndexOutOfRange exactly when the
requested index has no corresponding positional argument (for `int`
indices and argument counts within the C++ `int` range), it returns the
argument at the index otherwise, and the or-default variant returns the
fallback exactly on the raising inputs and the looked-up argument on the
others. -/
theorem c5_positional_lookup :
    ∀ (r : ParseResult) (i : Int) (d : String),
      (-(2 ^ 31) ≤ i → i < 2 ^ 31 → r.args.length < 2 ^ 31 →
        ((argument r i = .error .indexOutOfRange) ↔
          ¬(0 ≤ i ∧ i.toNat < r.args.length))) ∧
      (argument r i = .error .indexOutOfRange → argOrDef r i d = d) ∧
      (∀ v, argument r i = .ok v → argOrDef r i d = v) ∧
      (0 ≤ i → i < 2 ^ 31 → i.toNat < r.args.length →
        argument r i = .ok (r.args.getD i.toNat "")) := by
  intro r i d
  refine ⟨?_, ?_, ?_, ?_⟩
  · intro h1 h2 h3
    unfold argument idxToSize
    by_cases hle : r.args.length ≤ (i % 18446744073709551616).toNat
    · simp only [if_pos hle]
      constructor
      · intro _
        omega
      · intro _
        trivial
    · simp only [if_neg hle]
      constructor
      · intro hcon
        exact absurd hcon (by simp)
      · intro hns
        exact absurd (by omega) hns
  · intro herr
    unfold argument at herr
    unfold argOrDef
    by_cases hle : r.args.length ≤ idxToSize i
    · simp [hle]
    · rw [if_neg hle] at herr
      cases herr
  · intro v hok
    unfold argument at hok
    unfold argOrDef
    by_cases hle : r.args.length ≤ idxToSize i
    · rw [if_pos hle] at hok
      cases hok
    · rw [if_neg hle] at hok
      have hv : r.args.getD (idxToSize i) "" = v := by injection hok
      rw [if_neg hle, ← hv]
      rw [List.getD_eq_getElem r.args d (by omega), List.getD_eq_getElem r.args "" (by omega)]
  · intro h0 h2 hlt
    have hidx : idxToSize i = i.toNat := by
      unfold idxToSize
      omega
    unfold argument
    rw [hidx, if_neg (by omega)]

/-- C5, witness: on the empty Result, strict lookup at index 0 raises
IndexOutOfRange and the or-default lookup returns the fallback `"x"`. -/
theorem c5_positional_lookup_witness :
    (argument (classify []) 0 = Except.error ArgxError.indexOutOfRange) ∧
      argOrDef (classify []) 0 "x" = "x" := by
  have h := c5_positional_lookup (classify []) 0 "x"
  have herr : argument (classify []) 0 = Except.error ArgxError.indexOutOfRange :=
    (h.1 (by decide) (by decide) (by decide)).mpr (by decide)
  exact ⟨herr, h.2.1 herr⟩

/-- C6.  Every option name introduced during the scan owns exactly one
entry of the option map, and that entry's value sequence is exactly the
list of values attached across all its occurrences, in encounter order
(`attachedVals`); in particular classifying `["-k","v1","-k","v2"]` gives
the single entry `("k", ["v1","v2"])` with no positionals and no flags. -/
theorem c6_repeated_option_accumulation :
    (∀ (toks : List String) (k : String), introducedP k none toks →
      (keysOf (classify toks).opts).count k = 1 ∧
      lookupOM (classify toks).opts k = some (attachedVals k none toks)) ∧
    classify ["-k", "v1", "-k", "v2"] =
      { args := [], opts := [("k", ["v1", "v2"])], flags := [] } := by
  constructor
  · intro toks k hin
    have hlook := scanGo_lookup_introduced toks [] [] [] none k hin
    simp only [lookupOM, Option.getD_none, List.nil_append] at hlook
    constructor
    · have hnd := scanGo_nodup toks [] [] [] none (by simp [keysOf])
      have hmem : k ∈ keysOf (classify toks).opts := by
        apply contains_mem_keysOf
        rw [containsOM_iff_isSome]
        simp [classify, hlook]
      exact List.count_eq_one_of_mem hnd hmem
    · exact hlook
  · decide

/-- C6, witness at the repeated option name `"a"` in
`["-a", "x", "-a", "y"]`. -/
theorem c6_repeated_option_witness :
    introducedP "a" none ["-a", "x", "-a", "y"] ∧
      lookupOM (classify ["-a", "x", "-a", "y"]).opts "a" =
        some (attachedVals "a" none ["-a", "x", "-a", "y"]) :=
  ⟨by decide, (c6_repeated_option_accumulation.1 ["-a", "x", "-a", "y"] "a" (by decide)).2⟩

/-- C7.  The scan assigns every scanned token exactly one of the four
categories (the classification trace `cats` is a total function of the
token list, one category per token, so no token is skipped: the inert
count is zero, written `+ 0` below), and the Result accounts for them
exactly: the positional count, option-name count, stored-value count and
flag count sum (with the zero inert count) to the number of scanned
tokens. -/
theorem c7_token_conservation :
    ∀ toks : List String,
      (cats none toks).length = toks.length ∧
      (classify toks).args.length = (cats none toks).count .positional ∧
      totalVals (classify toks).opts = (cats none toks).count .optValue ∧
      (classify toks).flags.length = (cats none toks).count .flagName ∧
      (cats none toks).count .positional + (cats none toks).count .optName +
          (cats none toks).count .optValue + (cats none toks).count .flagName + 0
        = toks.length := by
  intro toks
  obtain ⟨h1, h2, h3⟩ := scanGo_counts toks [] [] [] none
  refine ⟨cats_length toks none, ?_, ?_, ?_, ?_⟩
  · simpa [classify] using h1
  · simpa [classify, totalVals] using h2
  · simpa [classify] using h3
  · rw [Nat.add_zero, tokCat_count_partition, cats_length]

/-- C8.  An option name introduced during the scan is always present in
the option mapping, and when no value is ever attached to it the entry's
value sequence is empty; in particular `["-opt"]` yields `{"opt": []}` and
`["-verbose", "--debug"]` yields `{"verbose": []}` with flag sequence
`["debug"]`. -/
theorem c8_valueless_option_present :
    (∀ (toks : List String) (k : String), introducedP k none toks →
      (lookupOM (classify toks).opts k).isSome = true ∧
      (attachedVals k none toks = [] → lookupOM (classify toks).opts k = some [])) ∧
    classify ["-opt"] = { args := [], opts := [("opt", [])], flags := [] } ∧
    classify ["-verbose", "--debug"] =
      { args := [], opts := [("verbose", [])], flags := ["debug"] } := by
  refine ⟨?_, by decide, by decide⟩
  intro toks k hin
  have hlook := scanGo_lookup_introduced toks [] [] [] none k hin
  simp only [lookupOM, Option.getD_none, List.nil_append] at hlook
  constructor
  · simp [classify, hlook]
  · intro hnil
    rw [show lookupOM (classify toks).opts k = lookupOM (scanGo [] [] [] none toks).opts k
      from rfl, hlook, hnil]

/-- C8, witness: `"verbose"` is introduced in `["-verbose", "--debug"]`
with no attached value, and is present with the empty value sequence. -/
theorem c8_valueless_option_witness :
    introducedP "verbose" none ["-verbose", "--debug"] ∧
      attachedVals "verbose" none ["-verbose", "--debug"] = [] ∧
      lookupOM (classify ["-verbose", "--debug"]).opts "verbose" = some [] :=
  ⟨by decide, by decide,
    (c8_valueless_option_present.1 ["-verbose", "--debug"] "verbose" (by decide)).2 (by decide)⟩

/-- C9.  No accessor mutates the Result.  The only accessors whose C++
bodies could mutate state are those calling `std::map::operator[]`
(modelled by `mapIndex`, which inserts when the key is absent); each such
call is guarded by `contains`, so the Result returned alongside every
accessor's answer is the original one; the remaining accessors only read
`const` copies.  -/
theorem c9_accessors_pure :
    ∀ (r : ParseResult) (k d : String) (keys : List String),
      (optionOrDefS r k d).2 = r ∧
      (optionOrDefKeys r keys d).2 = r ∧
      (optionSingle r k).2 = r ∧
      (optionKeys r keys).2 = r ∧
      (optionsOne r k).2 = r ∧
      (optionsMany r keys).2 = r := by
  intro r k d keys
  obtain ⟨a, o, f⟩ := r
  refine ⟨?_, ?_, ?_, ?_, ?_, ?_⟩
  · by_cases hc : containsOM o k = true
    · simp [optionOrDefS, hc, mapIndex_of_contains o k hc]
    · simp [optionOrDefS, hc]
  · simp [optionOrDefKeys, optionOrDefKeysGo_snd]
  · simp [optionSingle, optionKeys, optionKeysGo_snd]
  · simp [optionKeys, optionKeysGo_snd]
  · by_cases hc : containsOM o k = true
    · simp [optionsOne, hc, mapIndex_of_contains o k hc]
    · simp [optionsOne, hc]
  · simp [optionsMany, optionsManyGo_snd]

/-- C10.  `argx::parse` scans tokens only from index 1, so the Result is
identical for any two argument vectors whose tokens after the first
agree, whatever the first token is. -/
theorem c10_first_token_ignored :
    ∀ argv1 argv2 : List String,
      argv1.drop 1 = argv2.drop 1 → parse argv1 = parse argv2 := by
  intro a b h
  unfold parse
  rw [h]

/-- C10, witness: differing program names, same later tokens. -/
theorem c10_first_token_witness :
    (["prog1", "-k", "v"].drop 1 = ["prog2", "-k", "v"].drop 1) ∧
      parse ["prog1", "-k", "v"] = parse ["prog2", "-k", "v"] :=
  ⟨by decide, c10_first_token_ignored ["prog1", "-k", "v"] ["prog2", "-k", "v"] (by decide)⟩

example : classify ["a", "b"] = { args := ["a", "b"], opts := [], flags := [] } := by decide
example : classify ["-k", "v1", "-k", "v2"] =
    { args := [], opts := [("k", ["v1", "v2"])], flags := [] } := by decide
example : classify ["-opt"] = { args := [], opts := [("opt", [])], flags := [] } := by decide
example : classify ["-verbose", "--debug"] =
    { args := [], opts := [("verbose", [])], flags := ["debug"] } := by decide
example : classify ["--flag1", "--flag2", "pos"] =
    { args := ["pos"], opts := [], flags := ["flag1", "flag2"] } := by decide
example : classify ["-"] = { args := [], opts := [("", [])], flags := [] } := by decide
example : classify ["--"] = { args := [], opts := [], flags := [""] } := by decide
example : classify ["---x"] = { args := [], opts := [], flags := ["-x"] } := by decide

end Argx
